import Mathlib

/-!
Shallow embedding of the deterministic pseudo-random core of the repository
(the bundled Chance.js 1.0.4 engine together with its Mersenne Twister
bit-stream source), and proofs of the specification claims about it.

JavaScript 32-bit bit operations are modelled on the unsigned 32-bit
pattern of each value (a `Nat` below `2 ^ 32`); `x >>> 0` is `% 4294967296`.
JavaScript floating point arithmetic on values produced by
`genrand_int32() / 2 ^ 32` is modelled with exact rational arithmetic.
-/

namespace Chance

/-- JS `ToUint32`, the semantics of `x >>> 0` on an integer value. -/
def toUint32 (n : Int) : Nat := (n % (4294967296 : Int)).toNat

/-- JS `ToInt32`, the coercion applied to both operands of `<<`. -/
def toInt32 (n : Int) : Int := (n + 2147483648) % 4294967296 - 2147483648

/-- JS `n << k` on an integer value: coerce to int32, shift, wrap to int32. -/
def jsShl (n : Int) (k : Nat) : Int := toInt32 (toInt32 n * 2 ^ k)

/-! ### MersenneTwister (src/unnamed/part_000, lines 4551-4676)

Period parameters from the constructor: `N = 624`, `M = 397`,
`MATRIX_A = 0x9908b0df`, `UPPER_MASK = 0x80000000`, `LOWER_MASK = 0x7fffffff`.
They are inlined as literals below. -/

/-- `mag01[x] = x * MATRIX_A for x=0,1` (array `[0x0, MATRIX_A]`). -/
def mag01 (x : Nat) : Nat := if x = 0 then 0 else 0x9908b0df

/-- One assignment of `init_genrand`:
`this.mt[this.mti] = (((((s & 0xffff0000) >>> 16) * 1812433253) << 16) + (s & 0x0000ffff) * 1812433253) + this.mti;`
followed by `this.mt[this.mti] >>>= 0`.  The `<< 16` wraps to 32 bits. -/
def initStep (s : Nat) (i : Nat) : Nat :=
  (((((s &&& 0xffff0000) >>> 16) * 1812433253) <<< 16) % 4294967296
      + (s &&& 0x0000ffff) * 1812433253 + i) % 4294967296

/-- `MersenneTwister.prototype.init_genrand`: entry `i` of the state array
seeded with `s`.  `mt[0] = s >>> 0`; each later entry is `initStep` of
`s = mt[i-1] ^ (mt[i-1] >>> 30)`. -/
def mtInit (seed : Int) : Nat → Nat
  | 0 => toUint32 seed
  | i + 1 =>
    let p := mtInit seed i
    initStep (p ^^^ (p >>> 30)) (i + 1)

/-- The full 624-word state array produced by `init_genrand(seed)`. -/
def mtInitList (seed : Int) : List Nat := (List.range 624).map (mtInit seed)

/-- `y = (mt[kk] & UPPER_MASK) | (mt[kk+1] & LOWER_MASK)` (the second index
is passed explicitly because the final line of the twist reads `mt[0]`). -/
def twistY (a b : Nat) : Nat := (a &&& 0x80000000) ||| (b &&& 0x7fffffff)

/-- One assignment of the twist loops:
`this.mt[kk] = this.mt[src] ^ (y >>> 1) ^ mag01[y & 0x1]` where `y` combines
entries `kk` and `i2` of the current (partially updated) array. -/
def twistStep (mt : List Nat) (kk i2 src : Nat) : List Nat :=
  let y := twistY (mt.getD kk 0) (mt.getD i2 0)
  mt.set kk ((mt.getD src 0) ^^^ (y >>> 1) ^^^ mag01 (y &&& 1))

/-- The three twist loops of `genrand_int32` run when `mti >= N`:
`kk in [0, N-M)` with source `kk+M`; `kk in [N-M, N-1)` with source
`kk+(M-N)`; finally `kk = N-1` combining `mt[N-1]` with the updated `mt[0]`
and source `M-1`. -/
def twistAll (mt : List Nat) : List Nat :=
  let m1 := (List.range (624 - 397)).foldl
    (fun acc kk => twistStep acc kk (kk + 1) (kk + 397)) mt
  let m2 := ((List.range (623 - (624 - 397))).map (fun j => j + (624 - 397))).foldl
    (fun acc kk => twistStep acc kk (kk + 1) (kk + 397 - 624)) m1
  twistStep m2 623 0 396

/-- The mutable state of a `MersenneTwister` instance: the state array
`this.mt` and the cursor `this.mti`. -/
structure MTState where
  mt : List Nat
  mti : Nat
deriving DecidableEq

/-- `MersenneTwister.prototype.genrand_int32`: regenerate the state via the
twist when the cursor has reached `N` (re-seeding with 5489 first if
`init_genrand` was never called, i.e. `mti = N + 1`), then temper and return
`mt[mti++]`.  The final `>>> 0` is the `% 4294967296`. -/
def genrand_int32 (st : MTState) : Nat × MTState :=
  let st1 := if 624 ≤ st.mti then
      let base := if st.mti = 624 + 1 then mtInitList 5489 else st.mt
      MTState.mk (twistAll base) 0
    else st
  let y0 := st1.mt.getD st1.mti 0
  let y1 := y0 ^^^ (y0 >>> 11)
  let y2 := y1 ^^^ (((y1 <<< 7) % 4294967296) &&& 0x9d2c5680)
  let y3 := y2 ^^^ (((y2 <<< 15) % 4294967296) &&& 0xefc60000)
  let y4 := y3 ^^^ (y3 >>> 18)
  (y4 % 4294967296, MTState.mk st1.mt (st1.mti + 1))

/-- `MersenneTwister.prototype.random`: `genrand_int32() * (1.0 / 4294967296.0)`. -/
def nextFloat (st : MTState) : ℚ × MTState :=
  (((genrand_int32 st).1 : ℚ) / 4294967296, (genrand_int32 st).2)

/-- The state transition of one raw draw. -/
def stepState (st : MTState) : MTState := (genrand_int32 st).2

/-- Modelled from the C3 claim for the refinement comparison (reading its
`⊕` as xor): `state[i] = f(state[i-1]) xor i` where `f` multiplies
`state[i-1] xor (state[i-1] >> 30)` by 1812433253, each entry reduced to a
32-bit word. -/
def mtInitClaim (seed : Int) : Nat → Nat
  | 0 => toUint32 seed
  | i + 1 =>
    let p := mtInitClaim seed i
    ((1812433253 * (p ^^^ (p >>> 30))) % 4294967296) ^^^ (i + 1)

/-! ### Seed combination (the `Chance` constructor, lines 20-63)

A constructor argument is either a number or a string (a list of UTF-16
character codes, `charCodeAt` values). -/

/-- One iteration of the inner hash loop:
`hash = arguments[i].charCodeAt(k) + (hash << 6) + (hash << 16) - hash`. -/
def hashStep (h : Int) (c : Nat) : Int := (c : Int) + jsShl h 6 + jsShl h 16 - h

/-- The value of `hash` after the inner `for (k ...)` loop over all
character codes of the string. -/
def strHash (s : List Nat) : Int := s.foldl hashStep 0

/-- A constructor argument: a number, or a string given by its character codes. -/
inductive SeedComp where
  | snum (n : Int)
  | sstr (chars : List Nat)
deriving DecidableEq

/-- The `seedling` computed for one constructor argument.  For a string the
outer `for (j ...)` loop runs once per character and each iteration adds the
full `hash` of the whole string to `seedling`. -/
def seedlingOf : SeedComp → Int
  | .snum n => n
  | .sstr cs => (List.range cs.length).foldl (fun acc _ => acc + strHash cs) 0

/-- `this.seed` after the constructor loop: starting from 0, for each
argument `i` the code does `this.seed += (arguments.length - i) * seedling`. -/
def chanceSeed (comps : List SeedComp) : Int :=
  comps.enum.foldl
    (fun seed ic => seed + ((comps.length : Int) - (ic.1 : Int)) * seedlingOf ic.2) 0

/-- Modelled from the spec sentence for C2 (refinement comparison only):
each string component contributes exactly the iterated character-code hash,
numeric components contribute their own value. -/
def seedlingSpec : SeedComp → Int
  | .snum n => n
  | .sstr cs => strHash cs

/-- The seed combination as the C2 claim states it, built on `seedlingSpec`. -/
def chanceSeedSpec (comps : List SeedComp) : Int :=
  comps.enum.foldl
    (fun seed ic => seed + ((comps.length : Int) - (ic.1 : Int)) * seedlingSpec ic.2) 0

/-- The amended seedling: a string component of length `L` contributes
`L * hash` because the outer loop re-adds the same full-string hash once per
character. -/
def seedlingAmended : SeedComp → Int
  | .snum n => n
  | .sstr cs => (cs.length : Int) * strHash cs

/-- The seed combination with the amended string contribution. -/
def chanceSeedAmended (comps : List SeedComp) : Int :=
  comps.enum.foldl
    (fun seed ic => seed + ((comps.length : Int) - (ic.1 : Int)) * seedlingAmended ic.2) 0

/-- The `Chance` constructor: with an argument list the combined seed feeds
`init_genrand` (and the constructor leaves `mti = N`); with no arguments the
`MersenneTwister` constructor self-seeds from
`Math.floor(Math.random() * Math.pow(10, 13))`, modelled by the ambient
`entropy` value. -/
def mkChance (args : Option (List SeedComp)) (entropy : Nat) : MTState :=
  match args with
  | some comps => MTState.mk (mtInitList (chanceSeed comps)) 624
  | none => MTState.mk (mtInitList (entropy : Int)) 624

/-! ### Uniform sampling layer -/

/-- Error messages raised by `testRange` in the sampled generators. -/
def integerRangeMsg : String := "Chance: Min cannot be greater than Max."

def naturalRangeMsg : String := "Chance: Min cannot be less than zero."

def boolRangeMsg : String := "Chance: Likelihood accepts values from 0 to 100."

/-- `Math.floor(this.random() * (max - min + 1) + min)` as a function of the
value `r` returned by `this.random()`. -/
def integerVal (r : ℚ) (mn mx : Int) : Int := ⌊r * ((mx : ℚ) - (mn : ℚ) + 1) + (mn : ℚ)⌋

/-- `Chance.prototype.integer` (lines 232-239): `testRange(min > max)` runs
before any draw; otherwise one draw is mapped through `integerVal`. -/
def integerImpl (st : MTState) (mn mx : Int) : Except String Int × MTState :=
  if mn > mx then (Except.error integerRangeMsg, st)
  else (Except.ok (integerVal (nextFloat st).1 mn mx), (nextFloat st).2)

/-! #### Binary64 semantics for `integer`

The source computes `Math.floor(this.random() * (max - min + 1) + min)` in
IEEE-754 binary64 arithmetic.  `integerVal`/`integerImpl` above are the
exact-rational idealization (adequate where rounding is immaterial); the
definitions below model the rounding of every double operation.  A finite
binary64 value is `c * 2^f` with an integer `|c| < 2^53`; `roundDouble`
rounds a rational to the nearest such value, ties to the even significand.
Exponent overflow and subnormal underflow are not modelled: every value in
the modelled expressions is far inside the normal range. -/

/-- Floor of the base-2 logarithm of a positive rational: the unique `k`
with `2^k <= q < 2^(k+1)` (junk on non-positive input). -/
def qFloorLog2 (q : ℚ) : Int :=
  let k : Int := (Nat.log2 q.num.toNat : Int) - (Nat.log2 q.den : Int)
  if (2 : ℚ) ^ k ≤ q then k else k - 1

/-- Round a rational to the nearest binary64 value: scale by the exponent
so the significand lands in `[2^52, 2^53)`, round it to an integer (ties to
even), and scale back. -/
def roundDouble (q : ℚ) : ℚ :=
  if q = 0 then 0
  else
    let e : Int := qFloorLog2 |q| - 52
    let scaled := |q| / (2 : ℚ) ^ e
    let n := ⌊scaled⌋
    let c := if 1 / 2 < scaled - (n : ℚ) then n + 1
      else if scaled - (n : ℚ) < 1 / 2 then n
      else if n % 2 = 0 then n else n + 1
    (if q < 0 then -1 else 1) * (c : ℚ) * (2 : ℚ) ^ e

/-- `Math.floor(this.random() * (options.max - options.min + 1) + options.min)`
with every double operation rounded: the constant `1.0 / 4294967296.0`, the
scaling of the raw draw `y`, `max - min`, the `+ 1`, the product, and the
final addition.  `Math.floor` itself is exact on doubles. -/
def fpEvalInteger (y : Nat) (mn mx : Int) : Int :=
  let r := roundDouble ((y : ℚ) * roundDouble (1 / 4294967296))
  let span := roundDouble (roundDouble ((mx : ℚ) - (mn : ℚ)) + 1)
  ⌊roundDouble (roundDouble (r * span) + (mn : ℚ))⌋

/-- `Chance.prototype.integer` (lines 232-239) under binary64 semantics:
`testRange(min > max)` runs before any draw; otherwise one draw is mapped
through `fpEvalInteger`. -/
def integerImplFP (st : MTState) (mn mx : Int) : Except String Int × MTState :=
  if mn > mx then (Except.error integerRangeMsg, st)
  else (Except.ok (fpEvalInteger (genrand_int32 st).1 mn mx), (genrand_int32 st).2)

/-- `Chance.prototype.natural` (lines 252-256): `testRange(min < 0)` then
delegate to `integer`. -/
def naturalImpl (st : MTState) (mn mx : Int) : Except String Int × MTState :=
  if mn < 0 then (Except.error naturalRangeMsg, st)
  else integerImpl st mn mx

/-- `Chance.prototype.bool` (lines 116-133): range-check the likelihood,
then `this.random() * 100 < options.likelihood`. -/
def boolImpl (st : MTState) (likelihood : Int) : Except String Bool × MTState :=
  if likelihood < 0 ∨ 100 < likelihood then (Except.error boolRangeMsg, st)
  else (Except.ok (decide ((nextFloat st).1 * 100 < (likelihood : ℚ))), (nextFloat st).2)

/-- Character pools from the source constants; `character` with no pool,
alpha, symbols or casing option uses `letters + NUMBERS + symbols` where
`letters = CHARS_LOWER + CHARS_UPPER`. -/
def NUMBERS : String := "0123456789"

def CHARS_LOWER : String := "abcdefghijklmnopqrstuvwxyz"

def CHARS_UPPER : String := "ABCDEFGHIJKLMNOPQRSTUVWXYZ"

def SYMBOLS : String := "!@#$%^&*()[]"

def defaultPool : List Char := (CHARS_LOWER ++ CHARS_UPPER ++ NUMBERS ++ SYMBOLS).toList

/-- `Chance.prototype.character` (lines 143-172) with default options:
`pool.charAt(this.natural({max: pool.length - 1}))`.  The pool is non-empty
so the range tests of `natural` pass; its successful branch is inlined. -/
def characterImpl (st : MTState) : Char × MTState :=
  let pool := defaultPool
  (pool.getD (integerVal (nextFloat st).1 0 ((pool.length : Int) - 1)).toNat (Char.ofNat 97),
   (nextFloat st).2)

/-- `Chance.prototype.n` (lines 339-358): `count` eager applications of the
generator, results in call order. -/
def nGo (fn : MTState → α × MTState) : Nat → MTState → List α × MTState
  | 0, st => ([], st)
  | k + 1, st =>
    let p := fn st
    let rest := nGo fn k p.2
    (p.1 :: rest.1, rest.2)

/-- `Chance.prototype.string` (lines 265-272) with an explicit non-negative
`length` option: the defaults object `{ length: this.natural({min: 5, max: 20}) }`
is evaluated eagerly, so one draw happens and is discarded before the `n`
loop generates `len` characters. -/
def stringImpl (st : MTState) (len : Nat) : List Char × MTState :=
  nGo characterImpl len (naturalImpl st 5 20).2

/-! ### A fixed sequence of generator calls (for the determinism claim) -/

/-- One generator method call with fixed arguments. -/
inductive Call where
  | cInteger (mn mx : Int)
  | cNatural (mn mx : Int)
  | cBool (likelihood : Int)
  | cString (len : Nat)
deriving DecidableEq

/-- The observable output of one call (a thrown range error included). -/
inductive Out where
  | onum (n : Int)
  | obool (b : Bool)
  | ostr (s : List Char)
  | oerr (msg : String)
deriving DecidableEq

/-- Dispatch one call against the engine. -/
def runCall (st : MTState) : Call → Out × MTState
  | .cInteger mn mx =>
    match integerImpl st mn mx with
    | (Except.ok v, st') => (.onum v, st')
    | (Except.error e, st') => (.oerr e, st')
  | .cNatural mn mx =>
    match naturalImpl st mn mx with
    | (Except.ok v, st') => (.onum v, st')
    | (Except.error e, st') => (.oerr e, st')
  | .cBool lk =>
    match boolImpl st lk with
    | (Except.ok v, st') => (.obool v, st')
    | (Except.error e, st') => (.oerr e, st')
  | .cString len =>
    let (cs, st') := stringImpl st len
    (.ostr cs, st')

/-- The output sequence of a fixed list of calls, issued in order against
the single shared engine instance. -/
def runCalls (st : MTState) : List Call → List Out × MTState
  | [] => ([], st)
  | c :: cs =>
    let (o, st1) := runCall st c
    let (os, st2) := runCalls st1 cs
    (o :: os, st2)

/-! ### Composite generators -/

/-- The loop body of `Chance.prototype.shuffle` (lines 407-423), iterated a
fixed number of times (`length`, captured before the loop): pick
`j = this.natural({max: old_array.length - 1})`, append `old_array[j]` to
the result, `old_array.splice(j, 1)`.  Inside the loop `old_array` is
non-empty, so the range tests of `natural` pass; its successful branch
is inlined. -/
def shuffleGo [Inhabited α] : Nat → MTState → List α → List α × MTState
  | 0, st, _ => ([], st)
  | n + 1, st, old =>
    let j := (integerVal (nextFloat st).1 0 ((old.length : Int) - 1)).toNat
    let rest := shuffleGo n (nextFloat st).2 (old.eraseIdx j)
    (old.getD j default :: rest.1, rest.2)

/-- `Chance.prototype.shuffle` on the value of the input array: the working
copy is `arr.slice(0)` and the loop count is the initial length. -/
def shuffleImpl [Inhabited α] (st : MTState) (arr : List α) : List α × MTState :=
  shuffleGo arr.length st arr

def pickoneEmptyMsg : String := "Chance: Cannot pickone() from an empty array"

def picksetEmptyMsg : String := "Chance: Cannot pickset() from an empty array"

def picksetNegMsg : String := "Chance: count must be positive number"

/-- `Chance.prototype.pickone` (lines 382-387):
`arr[this.natural({max: arr.length - 1})]` after the empty-array check. -/
def pickoneImpl [Inhabited α] (st : MTState) (arr : List α) : Except String α × MTState :=
  if arr.length = 0 then (Except.error pickoneEmptyMsg, st)
  else
    match naturalImpl st 0 ((arr.length : Int) - 1) with
    | (Except.ok v, st') => (Except.ok (arr.getD v.toNat default), st')
    | (Except.error e, st') => (Except.error e, st')

/-- `Chance.prototype.pickset` (lines 390-405), with the checks in source
order: `count === 0` first (empty result), then the empty-array check, then
`count < 0`, then the single-element case, else `shuffle(arr).slice(0, count)`. -/
def picksetImpl [Inhabited α] (st : MTState) (arr : List α) (count : Int) :
    Except String (List α) × MTState :=
  if count = 0 then (Except.ok [], st)
  else if arr.length = 0 then (Except.error picksetEmptyMsg, st)
  else if count < 0 then (Except.error picksetNegMsg, st)
  else if count = 1 then
    match pickoneImpl st arr with
    | (Except.ok v, st') => (Except.ok [v], st')
    | (Except.error e, st') => (Except.error e, st')
  else (Except.ok ((shuffleImpl st arr).1.take count.toNat), (shuffleImpl st arr).2)

def weightedLengthMsg : String := "Chance: length of array and weights must match"

def weightedSumMsg : String := "Chance: no valid entries in array weights"

/-- The first scan of `Chance.prototype.weighted` (lines 432-439): sum the
strictly positive weights. -/
def posSum (weights : List ℚ) : ℚ :=
  weights.foldl (fun acc v => if 0 < v then acc + v else acc) 0

/-- The selection scan of `weighted` (lines 449-467): `total` accumulates
every weight; a strictly positive weight with `selected <= total` is chosen
(break); otherwise a strictly positive weight becomes `lastGoodIdx`.
`lastGoodIdx` starts at -1.  The base case is the final-index
fallback `chosenIdx = lastGoodIdx` of the source, reached exactly when no index broke out
of the loop. -/
def weightedScanGo (selected : ℚ) : List ℚ → Nat → ℚ → Int → Int
  | [], _, _, lastGood => lastGood
  | v :: rest, idx, total, lastGood =>
    let total := total + v
    if 0 < v ∧ selected ≤ total then (idx : Int)
    else weightedScanGo selected rest (idx + 1) total (if 0 < v then (idx : Int) else lastGood)

/-- `Chance.prototype.weighted` (lines 426-477) with `trim` left at its
default `false` (no mutation of the inputs): length check, positive-sum
check, `selected = this.random() * sum`, then the selection scan. -/
def weightedImpl [Inhabited α] (st : MTState) (arr : List α) (weights : List ℚ) :
    Except String α × MTState :=
  if arr.length ≠ weights.length then (Except.error weightedLengthMsg, st)
  else
    let sum := posSum weights
    if sum = 0 then (Except.error weightedSumMsg, st)
    else
      let selected := (nextFloat st).1 * sum
      let chosenIdx := weightedScanGo selected weights 0 0 (-1)
      (Except.ok (arr.getD chosenIdx.toNat default), (nextFloat st).2)

/-! ### Luhn checksum and credit-card numbers -/

/-- `Chance.prototype.luhn_calculate` (lines 1983-1999) on the digit list of
the input: reverse, double every digit at even reversed index, subtract 9
from doubled digits above 9, sum, return `(sum * 9) % 10`. -/
def luhn_calculate (digits : List Nat) : Nat :=
  let sum := digits.reverse.enum.foldl
    (fun acc id =>
      acc + (if id.1 % 2 = 0 then (if id.2 * 2 > 9 then id.2 * 2 - 9 else id.2 * 2) else id.2)) 0
  (sum * 9) % 10

/-- `Chance.prototype.luhn_check` (lines 1977-1981): the last digit must
equal `luhn_calculate` of the remaining digits.  (For `cc()` outputs the
leading digit is a non-zero issuer digit and the body has at most 15 digits,
so the `Number` round-trips in the source preserve the digit list.) -/
def luhn_check (digits : List Nat) : Bool :=
  decide (digits.getLastD 0 = luhn_calculate digits.dropLast)

/-- One entry of the `cc_types` data table: issuer name, short name, the
issuer identification digits (the `prefix` string) and the full length. -/
structure CCType where
  name : String
  short_name : String
  ccPrefix : List Nat
  length : Nat
deriving DecidableEq

/-- The `cc_types` table (lines 2820-2838). -/
def cc_types : List CCType :=
  [⟨"American Express", "amex", [3, 4], 15⟩,
   ⟨"Bankcard", "bankcard", [5, 6, 1, 0], 16⟩,
   ⟨"China UnionPay", "chinaunion", [6, 2], 16⟩,
   ⟨"Diners Club Carte Blanche", "dccarte", [3, 0, 0], 14⟩,
   ⟨"Diners Club enRoute", "dcenroute", [2, 0, 1, 4], 15⟩,
   ⟨"Diners Club International", "dcintl", [3, 6], 14⟩,
   ⟨"Diners Club United States & Canada", "dcusc", [5, 4], 16⟩,
   ⟨"Discover Card", "discover", [6, 0, 1, 1], 16⟩,
   ⟨"InstaPayment", "instapay", [6, 3, 7], 16⟩,
   ⟨"JCB", "jcb", [3, 5, 2, 8], 16⟩,
   ⟨"Laser", "laser", [6, 3, 0, 4], 16⟩,
   ⟨"Maestro", "maestro", [5, 0, 1, 8], 16⟩,
   ⟨"Mastercard", "mc", [5, 1], 16⟩,
   ⟨"Solo", "solo", [6, 3, 3, 4], 16⟩,
   ⟨"Switch", "switch", [4, 9, 0, 3], 16⟩,
   ⟨"Visa", "visa", [4], 16⟩,
   ⟨"Visa Electron", "electron", [4, 0, 2, 6], 16⟩]

/-- `Chance.prototype.cc` (lines 1614-1633) for a chosen issuer type `t`:
`to_generate = type.length - type.prefix.length - 1` filler digits from
`this.n(this.integer, to_generate, {min: 0, max: 9})` (the successful branch
of `integer` is inlined, `0 <= 9`), then the Luhn digit of the whole body is
appended. -/
def ccImpl (st : MTState) (t : CCType) : List Nat × MTState :=
  let toGenerate := t.length - t.ccPrefix.length - 1
  let digs := nGo
    (fun s => ((integerVal (nextFloat s).1 0 9).toNat, (nextFloat s).2)) toGenerate st
  let body := t.ccPrefix ++ digs.1
  (body ++ [luhn_calculate body], digs.2)

/-! ### A small JS heap, for the claims about aliasing and copies

Values are numbers, strings, `undefined`, or references to heap objects;
heap objects are arrays or plain objects; an address is an index into the
heap list and allocation appends. -/

inductive JVal where
  | vnum (n : Int)
  | vstr (s : String)
  | vundef
  | vref (a : Nat)
deriving DecidableEq

instance : Inhabited JVal := ⟨JVal.vundef⟩

inductive JObj where
  | arr (elems : List JVal)
  | obj (fields : List (String × JVal))
deriving DecidableEq

abbrev Heap := List JObj

def readObj (h : Heap) (a : Nat) : Option JObj := h[a]?

def alloc (h : Heap) (o : JObj) : Heap × Nat := (h ++ [o], h.length)

/-- JS truthiness of the values that occur in the data tables. -/
def jsTruthy : JVal → Bool
  | .vnum n => decide (n ≠ 0)
  | .vstr s => decide (s ≠ "")
  | .vundef => false
  | .vref _ => true

/-- `copyObject` (lines 4400-4411): allocate a fresh top-level container.
Arrays are copied element-wise by `_copyArray` (lines 4394-4398); the copied
elements are the same values, references included.  Objects are copied by
`_copyObject` (lines 4384-4392) via `target[key] = source[key] || target[key]`
with a fresh target, so falsy field values degrade to `undefined`. -/
def copyObject (h : Heap) (source : JObj) : Heap × Nat :=
  match source with
  | .arr es => alloc h (.arr es)
  | .obj fs =>
    alloc h (.obj (fs.map (fun kv => (kv.1, if jsTruthy kv.2 then kv.2 else JVal.vundef))))

/-- `Chance.prototype.get` (lines 4414-4416): `copyObject(data[name])`,
with the named canonical table living at `tableAddr`. -/
def chanceGet (h : Heap) (tableAddr : Nat) : Heap × Nat :=
  copyObject h ((readObj h tableAddr).getD (JObj.arr []))

/-- A caller mutation: overwrite element `i` of the array at address `a`. -/
def setArrElem (h : Heap) (a i : Nat) (v : JVal) : Heap :=
  match readObj h a with
  | some (.arr es) => h.set a (.arr (es.set i v))
  | _ => h

/-- A caller mutation: overwrite field `k` of the object at address `a`. -/
def setObjField (h : Heap) (a : Nat) (k : String) (v : JVal) : Heap :=
  match readObj h a with
  | some (.obj fs) => h.set a (.obj (fs.map (fun kv => if kv.1 = k then (k, v) else kv)))
  | _ => h

/-- Reading a field of row `idx` of the canonical table at `table`, the way
the domain formatters consume table entries. -/
def tableFieldRead (h : Heap) (table idx : Nat) (k : String) : Option JVal :=
  match readObj h table with
  | some (.arr es) =>
    match es[idx]? with
    | some (.vref a) =>
      match readObj h a with
      | some (.obj fs) => fs.lookup k
      | _ => none
    | _ => none
  | _ => none

/-- The `shuffle` loop at heap level: the working copy lives at address
`ca`; each iteration reads it, draws `j`, and `splice(j, 1)` writes the
shrunken array back to `ca`. -/
def shuffleHGo : Nat → MTState → Heap → Nat → List JVal × Heap × MTState
  | 0, st, h, _ => ([], h, st)
  | n + 1, st, h, ca =>
    let old := match readObj h ca with
      | some (.arr es) => es
      | _ => []
    let j := (integerVal (nextFloat st).1 0 ((old.length : Int) - 1)).toNat
    let h1 := h.set ca (JObj.arr (old.eraseIdx j))
    let rest := shuffleHGo n (nextFloat st).2 h1 ca
    (old.getD j JVal.vundef :: rest.1, rest.2)

/-- `Chance.prototype.shuffle` at heap level: `old_array = arr.slice(0)`
allocates the working copy, the loop splices it in place, and the input
array at `a` is never written. -/
def shuffleH (h : Heap) (a : Nat) (st : MTState) : List JVal × Heap × MTState :=
  let old := match readObj h a with
    | some (.arr es) => es
    | _ => []
  shuffleHGo old.length st (alloc h (JObj.arr old)).1 (alloc h (JObj.arr old)).2

/-- A concrete engine state (cursor at 0 over an all-zero state table) used
to instantiate theorems at explicit inputs. -/
def probeState : MTState := MTState.mk (List.replicate 624 0) 0

/-- The example table heap: the canonical table at address 0 is an array
whose single row is a reference to the object at address 1. -/
def tableHeap : Heap := [JObj.arr [JVal.vref 1], JObj.obj [("name", JVal.vstr ("x"))]]

/-- The address a caller finds at element `i` of the array at `a`. -/
def refAt (h : Heap) (a i : Nat) : Nat :=
  match readObj h a with
  | some (.arr es) =>
    match es[i]? with
    | some (.vref r) => r
    | _ => 0
  | _ => 0

/-- The heap after a caller takes the result of `get` for the table at address 0
and writes field `name` of the row object reached through the copy. -/
def mutatedHeap : Heap :=
  setObjField (chanceGet tableHeap 0).1
    (refAt (chanceGet tableHeap 0).1 (chanceGet tableHeap 0).2 0) ("name") (JVal.vstr ("y"))

/-! ## Supporting lemmas -/

theorem genrand_int32_lt (st : MTState) : (genrand_int32 st).1 < 4294967296 := by
  unfold genrand_int32
  exact Nat.mod_lt _ (by norm_num)

theorem nextFloat_nonneg (st : MTState) : 0 ≤ (nextFloat st).1 := by
  unfold nextFloat
  positivity

theorem nextFloat_lt_one (st : MTState) : (nextFloat st).1 < 1 := by
  unfold nextFloat
  rw [div_lt_one (by norm_num)]
  exact_mod_cast genrand_int32_lt st

theorem integerVal_bounds (r : ℚ) (mn mx : Int) (h : mn ≤ mx) (h0 : 0 ≤ r) (h1 : r < 1) :
    mn ≤ integerVal r mn mx ∧ integerVal r mn mx ≤ mx := by
  unfold integerVal
  have hmn : (mn : ℚ) ≤ (mx : ℚ) := by exact_mod_cast h
  have hk : (0 : ℚ) < (mx : ℚ) - (mn : ℚ) + 1 := by linarith
  constructor
  · rw [Int.le_floor]
    nlinarith
  · have hfl : ⌊r * ((mx : ℚ) - (mn : ℚ) + 1) + (mn : ℚ)⌋ < mx + 1 := by
      rw [Int.floor_lt]
      push_cast
      nlinarith
    omega

/-! ## C1 -/

/-- C1: with a fixed argument list supplied to the constructor, two
independently constructed engine instances (arbitrary ambient entropies
`e1`, `e2`) produce identical output sequences for every fixed sequence of
generator calls: the outputs are a function of the seed arguments and the
calls alone. -/
theorem chance_determinism (comps : List SeedComp) (e1 e2 : Nat) (cs : List Call) :
    (runCalls (mkChance (some comps) e1) cs).1 = (runCalls (mkChance (some comps) e2) cs).1 :=
  rfl

/-! ## C2 -/

theorem foldl_add_const (x : Int) : ∀ (l : List Nat) (a : Int),
    l.foldl (fun acc _ => acc + x) a = a + (l.length : Int) * x := by
  intro l
  induction l with
  | nil => intro a; simp
  | cons b t ih =>
    intro a
    simp only [List.foldl_cons, ih, List.length_cons]
    push_cast
    ring

theorem seedlingOf_eq_amended (c : SeedComp) : seedlingOf c = seedlingAmended c := by
  cases c with
  | snum n => rfl
  | sstr cs =>
    simp only [seedlingOf, seedlingAmended, foldl_add_const, List.length_range]
    ring

/-- C2 counterexample: for the single string argument `"ab"` (character
codes 97, 98) the seed computed by the constructor differs from the seed the
claim describes, because the outer loop adds the full-string hash once per
character. -/
theorem seed_hash_spec_cex :
    chanceSeed [SeedComp.sstr [97, 98]] ≠ chanceSeedSpec [SeedComp.sstr [97, 98]] := by
  decide

/-- C2 amended: the seed is combined exactly as claimed except that each
string component contributes its length times the iterated character-code
hash (numeric components still contribute their own value, and the
contributions are combined as `seed += (numComponents - index) * seedling`
in order). -/
theorem seed_combine_amended (comps : List SeedComp) :
    chanceSeed comps = chanceSeedAmended comps := by
  unfold chanceSeed chanceSeedAmended
  rw [show seedlingOf = seedlingAmended from funext seedlingOf_eq_amended]

/-! ## C3 -/

theorem hi16_shift (s : Nat) : (s &&& 0xffff0000) >>> 16 = (s >>> 16) % 65536 := by
  have hc : (0xffff0000 : Nat) = (2 ^ 16 - 1) <<< 16 := by
    rw [Nat.shiftLeft_eq]
    norm_num
  have hm : (65536 : Nat) = 2 ^ 16 := by norm_num
  apply Nat.eq_of_testBit_eq
  intro i
  simp only [hc, hm, Nat.testBit_shiftRight, Nat.testBit_and, Nat.testBit_shiftLeft,
    Nat.testBit_two_pow_sub_one, Nat.testBit_mod_two_pow, Nat.le_add_right, decide_True,
    Bool.true_and, Nat.add_sub_cancel_left]
  exact Bool.and_comm _ _

theorem initStep_eq (s i : Nat) (hs : s < 4294967296) :
    initStep s i = (1812433253 * s + i) % 4294967296 := by
  unfold initStep
  have h1 : s &&& 0x0000ffff = s % 65536 := by
    have hm : (0x0000ffff : Nat) = 2 ^ 16 - 1 := by norm_num
    rw [hm, Nat.and_pow_two_sub_one_eq_mod]
  have h2 : (s &&& 0xffff0000) >>> 16 = s / 65536 := by
    rw [hi16_shift, Nat.shiftRight_eq_div_pow]
    norm_num
    omega
  rw [h1, h2, Nat.shiftLeft_eq]
  norm_num
  omega

theorem mtInit_lt (s : Int) : ∀ i, mtInit s i < 4294967296 := by
  intro i
  cases i with
  | zero =>
    simp only [mtInit, toUint32]
    have h0 : (0 : Int) ≤ s % 4294967296 := Int.emod_nonneg s (by norm_num)
    have h1 : s % 4294967296 < 4294967296 := Int.emod_lt_of_pos s (by norm_num)
    omega
  | succ j =>
    simp only [mtInit, initStep]
    exact Nat.mod_lt _ (by norm_num)

/-- C3 counterexample: reading the claimed recurrence `state[i] = f(state[i-1]) ⊕ i`
with `⊕` as xor disagrees with `init_genrand` at seed 0, index 3 (the code
adds `i` instead). -/
theorem mt_init_xor_cex : mtInit 0 3 ≠ mtInitClaim 0 3 := by decide

/-- C3 amended: the seeding routine satisfies `state[0] = seed >>> 0` and,
for `i` in 1..623, `state[i] = (1812433253 * (state[i-1] xor (state[i-1] >>> 30)) + i) mod 2^32`
(the index is added, not xored; each entry is a 32-bit word). -/
theorem mt_init_closed_form (s : Int) (i : Nat) (h1 : 1 ≤ i) (h2 : i ≤ 623) :
    mtInit s 0 = toUint32 s ∧
    mtInit s i =
      (1812433253 * (mtInit s (i - 1) ^^^ (mtInit s (i - 1) >>> 30)) + i) % 4294967296 := by
  refine ⟨rfl, ?_⟩
  obtain ⟨j, rfl⟩ : ∃ j, i = j + 1 := ⟨i - 1, by omega⟩
  have hb := mtInit_lt s j
  have hxor : mtInit s j ^^^ (mtInit s j >>> 30) < 4294967296 := by
    have h32 : (4294967296 : Nat) = 2 ^ 32 := by norm_num
    rw [h32] at hb ⊢
    refine Nat.xor_lt_two_pow hb (lt_of_le_of_lt ?_ hb)
    rw [Nat.shiftRight_eq_div_pow]
    exact Nat.div_le_self _ _
  have lhs : mtInit s (j + 1) = initStep (mtInit s j ^^^ (mtInit s j >>> 30)) (j + 1) := rfl
  rw [Nat.add_sub_cancel, lhs, initStep_eq _ _ hxor]

/-- Witness for the amended C3 theorem at seed 0, index 1. -/
theorem mt_init_closed_form_witness :
    ((1 : Nat) ≤ 1 ∧ (1 : Nat) ≤ 623) ∧
    (mtInit 0 0 = toUint32 0 ∧
      mtInit 0 1 = (1812433253 * (mtInit 0 0 ^^^ (mtInit 0 0 >>> 30)) + 1) % 4294967296) :=
  ⟨⟨le_refl 1, by norm_num⟩, mt_init_closed_form 0 1 (le_refl 1) (by norm_num)⟩

/-! ## C4

Binary64 rounding facts: `qFloorLog2` brackets a positive rational between
consecutive powers of two, every value `c * 2^f` with `|c| < 2^53` is a
fixed point of `roundDouble`, and a scaled fraction above one half rounds
the significand up. -/

theorem two_zpow_pos (e : Int) : (0 : ℚ) < (2 : ℚ) ^ e := by positivity

theorem two_zpow_cast (m : Nat) : (2 : ℚ) ^ (m : Int) = ((2 ^ m : Nat) : ℚ) := by
  rw [zpow_natCast]
  push_cast
  ring

theorem qFloorLog2_correct (q : ℚ) (hq : 0 < q) :
    (2 : ℚ) ^ qFloorLog2 q ≤ q ∧ q < (2 : ℚ) ^ (qFloorLog2 q + 1) := by
  have hnum : 0 < q.num := Rat.num_pos.mpr hq
  have hden : 0 < q.den := q.den_pos
  have ha0 : q.num.toNat ≠ 0 := by omega
  have hb0 : q.den ≠ 0 := by omega
  have hqeq : q = ((q.num.toNat : Nat) : ℚ) / ((q.den : Nat) : ℚ) := by
    have h1 : ((q.num.toNat : Nat) : ℚ) = ((q.num : Int) : ℚ) := by
      have := Int.toNat_of_nonneg hnum.le
      exact_mod_cast congrArg (fun z : Int => (z : ℚ)) this
    rw [h1, Rat.num_div_den]
  have hA1 : ((2 ^ Nat.log2 q.num.toNat : Nat) : ℚ) ≤ ((q.num.toNat : Nat) : ℚ) := by
    exact_mod_cast Nat.log2_self_le ha0
  have hA2 : ((q.num.toNat : Nat) : ℚ) < ((2 ^ (Nat.log2 q.num.toNat + 1) : Nat) : ℚ) := by
    exact_mod_cast Nat.lt_log2_self
  have hB1 : ((2 ^ Nat.log2 q.den : Nat) : ℚ) ≤ ((q.den : Nat) : ℚ) := by
    exact_mod_cast Nat.log2_self_le hb0
  have hB2 : ((q.den : Nat) : ℚ) < ((2 ^ (Nat.log2 q.den + 1) : Nat) : ℚ) := by
    exact_mod_cast Nat.lt_log2_self
  have hbq : (0 : ℚ) < ((q.den : Nat) : ℚ) := by exact_mod_cast hden
  have haq : (0 : ℚ) < ((2 ^ Nat.log2 q.num.toNat : Nat) : ℚ) := by positivity
  have haq1 : (0 : ℚ) < ((2 ^ (Nat.log2 q.num.toNat + 1) : Nat) : ℚ) := by positivity
  have hbq0 : (0 : ℚ) < ((2 ^ Nat.log2 q.den : Nat) : ℚ) := by positivity
  have hbq1 : (0 : ℚ) < ((2 ^ (Nat.log2 q.den + 1) : Nat) : ℚ) := by positivity
  have hlow : (2 : ℚ) ^ ((Nat.log2 q.num.toNat : Int) - (Nat.log2 q.den : Int) - 1) < q := by
    rw [show (Nat.log2 q.num.toNat : Int) - (Nat.log2 q.den : Int) - 1 =
      (Nat.log2 q.num.toNat : Int) - ((Nat.log2 q.den + 1 : Nat) : Int) by push_cast; ring,
      zpow_sub₀ (by norm_num : (2 : ℚ) ≠ 0), two_zpow_cast, two_zpow_cast]
    conv_rhs => rw [hqeq]
    rw [div_lt_div_iff₀ hbq1 hbq]
    nlinarith
  have hupp : q < (2 : ℚ) ^ ((Nat.log2 q.num.toNat : Int) - (Nat.log2 q.den : Int) + 1) := by
    rw [show (Nat.log2 q.num.toNat : Int) - (Nat.log2 q.den : Int) + 1 =
      ((Nat.log2 q.num.toNat + 1 : Nat) : Int) - ((Nat.log2 q.den : Nat) : Int) by
        push_cast; ring,
      zpow_sub₀ (by norm_num : (2 : ℚ) ≠ 0), two_zpow_cast, two_zpow_cast]
    conv_lhs => rw [hqeq]
    rw [div_lt_div_iff₀ hbq hbq0]
    nlinarith
  unfold qFloorLog2
  by_cases ht : (2 : ℚ) ^ ((Nat.log2 q.num.toNat : Int) - (Nat.log2 q.den : Int)) ≤ q
  · rw [if_pos ht]
    exact ⟨ht, hupp⟩
  · rw [if_neg ht]
    refine ⟨le_of_lt hlow, ?_⟩
    rw [show (Nat.log2 q.num.toNat : Int) - (Nat.log2 q.den : Int) - 1 + 1 =
      (Nat.log2 q.num.toNat : Int) - (Nat.log2 q.den : Int) by ring]
    exact lt_of_not_le ht

theorem qFloorLog2_unique (q : ℚ) (k : Int) (h1 : (2 : ℚ) ^ k ≤ q)
    (h2 : q < (2 : ℚ) ^ (k + 1)) : qFloorLog2 q = k := by
  have hq : 0 < q := lt_of_lt_of_le (two_zpow_pos k) h1
  obtain ⟨c1, c2⟩ := qFloorLog2_correct q hq
  by_contra hne
  rcases lt_or_gt_of_ne hne with hlt | hgt
  · have : (2 : ℚ) ^ (qFloorLog2 q + 1) ≤ (2 : ℚ) ^ k :=
      zpow_le_zpow_right₀ (by norm_num) (by omega)
    linarith
  · have : (2 : ℚ) ^ (k + 1) ≤ (2 : ℚ) ^ qFloorLog2 q :=
      zpow_le_zpow_right₀ (by norm_num) (by omega)
    linarith

theorem roundDouble_fix (c f : Int) (hc : c.natAbs < 2 ^ 53) :
    roundDouble ((c : ℚ) * (2 : ℚ) ^ f) = (c : ℚ) * (2 : ℚ) ^ f := by
  rcases eq_or_ne c 0 with rfl | hc0
  · simp [roundDouble]
  have hcq : ((c : Int) : ℚ) ≠ 0 := Int.cast_ne_zero.mpr hc0
  have hq0 : (c : ℚ) * (2 : ℚ) ^ f ≠ 0 := mul_ne_zero hcq (ne_of_gt (two_zpow_pos f))
  have hcabs : |(c : ℚ)| = ((c.natAbs : Nat) : ℚ) := by
    rw [Int.cast_natAbs, Int.cast_abs]
  have habs : |(c : ℚ) * (2 : ℚ) ^ f| = ((c.natAbs : Nat) : ℚ) * (2 : ℚ) ^ f := by
    rw [abs_mul, abs_of_pos (two_zpow_pos f), hcabs]
  have hna0 : c.natAbs ≠ 0 := by omega
  set L := Nat.log2 c.natAbs with hLdef
  have hL52 : L ≤ 52 := by
    have := (Nat.log2_lt hna0).mpr hc
    omega
  have hflog : qFloorLog2 |(c : ℚ) * (2 : ℚ) ^ f| = (L : Int) + f := by
    apply qFloorLog2_unique
    · rw [habs, zpow_add₀ (by norm_num : (2 : ℚ) ≠ 0), two_zpow_cast]
      have h1 : ((2 ^ L : Nat) : ℚ) ≤ ((c.natAbs : Nat) : ℚ) := by
        exact_mod_cast Nat.log2_self_le hna0
      exact mul_le_mul_of_nonneg_right h1 (two_zpow_pos f).le
    · rw [habs, show (L : Int) + f + 1 = ((L + 1 : Nat) : Int) + f by push_cast; ring,
        zpow_add₀ (by norm_num : (2 : ℚ) ≠ 0), two_zpow_cast]
      have h2 : ((c.natAbs : Nat) : ℚ) < ((2 ^ (L + 1) : Nat) : ℚ) := by
        exact_mod_cast Nat.lt_log2_self
      exact mul_lt_mul_of_pos_right h2 (two_zpow_pos f)
  set N : Nat := c.natAbs * 2 ^ (52 - L) with hNdef
  have hscaled : |(c : ℚ) * (2 : ℚ) ^ f| / (2 : ℚ) ^ ((L : Int) + f - 52) = ((N : Nat) : ℚ) := by
    rw [div_eq_iff (ne_of_gt (two_zpow_pos ((L : Int) + f - 52))), habs, hNdef]
    rw [Nat.cast_mul, ← two_zpow_cast]
    rw [show ((52 - L : Nat) : Int) = 52 - (L : Int) from by omega]
    rw [mul_assoc, ← zpow_add₀ (by norm_num : (2 : ℚ) ≠ 0)]
    rw [show (52 - (L : Int)) + ((L : Int) + f - 52) = f from by ring]
  have hNcast : (((N : Nat) : Int) : ℚ) = ((N : Nat) : ℚ) := by push_cast; ring
  have hNval : (((N : Nat) : Int) : ℚ) * (2 : ℚ) ^ ((L : Int) + f - 52)
      = |(c : ℚ) * (2 : ℚ) ^ f| := by
    rw [hNcast, ← hscaled, div_mul_cancel₀ _ (ne_of_gt (two_zpow_pos _))]
  have hz : ((N : Nat) : ℚ) - (((N : Nat) : Int) : ℚ) = 0 := by push_cast; ring
  simp only [roundDouble]
  rw [if_neg hq0, hflog, hscaled, Int.floor_natCast, hz]
  rw [if_neg (by norm_num : ¬(1 / 2 : ℚ) < 0), if_pos (by norm_num : (0 : ℚ) < 1 / 2)]
  rcases lt_or_gt_of_ne hc0 with hneg | hpos
  · have hqneg : (c : ℚ) * (2 : ℚ) ^ f < 0 :=
      mul_neg_of_neg_of_pos (by exact_mod_cast hneg) (two_zpow_pos f)
    rw [if_pos hqneg]
    rw [show (-1 : ℚ) * (((N : Nat) : Int) : ℚ) * (2 : ℚ) ^ ((L : Int) + f - 52)
      = -((((N : Nat) : Int) : ℚ) * (2 : ℚ) ^ ((L : Int) + f - 52)) from by ring]
    rw [hNval, abs_of_neg hqneg, neg_neg]
  · have hqpos : 0 < (c : ℚ) * (2 : ℚ) ^ f :=
      mul_pos (by exact_mod_cast hpos) (two_zpow_pos f)
    rw [if_neg (not_lt.mpr hqpos.le), one_mul, hNval, abs_of_pos hqpos]

theorem roundDouble_int (c : Int) (hc : c.natAbs < 2 ^ 53) :
    roundDouble ((c : Int) : ℚ) = ((c : Int) : ℚ) := by
  have h := roundDouble_fix c 0 hc
  simpa using h

theorem roundDouble_div32 (c : Int) (hc : c.natAbs < 2 ^ 53) :
    roundDouble (((c : Int) : ℚ) / 4294967296) = ((c : Int) : ℚ) / 4294967296 := by
  have h := roundDouble_fix c (-32) hc
  have he : (2 : ℚ) ^ (-32 : Int) = 1 / 4294967296 := by norm_num
  rw [he] at h
  simpa [mul_one_div] using h

theorem roundDouble_round_up (q : ℚ) (k n : Int) (hq : 0 < q)
    (hbr1 : (2 : ℚ) ^ k ≤ q) (hbr2 : q < (2 : ℚ) ^ (k + 1))
    (hn : ⌊q / (2 : ℚ) ^ (k - 52)⌋ = n)
    (hfrac : 1 / 2 < q / (2 : ℚ) ^ (k - 52) - (n : ℚ)) :
    roundDouble q = ((n : ℚ) + 1) * (2 : ℚ) ^ (k - 52) := by
  have hq0 : q ≠ 0 := ne_of_gt hq
  have habs : |q| = q := abs_of_pos hq
  have hflog : qFloorLog2 |q| = k := by
    rw [habs]
    exact qFloorLog2_unique q k hbr1 hbr2
  simp only [roundDouble]
  rw [if_neg hq0, hflog, habs, hn, if_pos hfrac, if_neg (not_lt.mpr hq.le)]
  push_cast
  ring

theorem fpEvalInteger_exact (y : Nat) (mn mx : Int) (hy : y < 4294967296)
    (h : mn ≤ mx) (hlo : -(2 ^ 20) < mn) (hhi : mx < 2 ^ 20) :
    fpEvalInteger y mn mx = integerVal ((y : ℚ) / 4294967296) mn mx := by
  have hr32 : roundDouble (1 / 4294967296) = 1 / 4294967296 := by
    have h1 := roundDouble_div32 1 (by norm_num)
    simpa using h1
  have hrY : roundDouble ((y : ℚ) * (1 / 4294967296)) = (y : ℚ) / 4294967296 := by
    have h1 := roundDouble_div32 (y : Int) (by omega)
    push_cast at h1
    rw [mul_one_div]
    exact h1
  have hd1 : roundDouble ((mx : ℚ) - (mn : ℚ)) = (mx : ℚ) - (mn : ℚ) := by
    have h1 := roundDouble_int (mx - mn) (by omega)
    push_cast at h1
    exact h1
  have hspan : roundDouble ((mx : ℚ) - (mn : ℚ) + 1) = (mx : ℚ) - (mn : ℚ) + 1 := by
    have h1 := roundDouble_int (mx - mn + 1) (by omega)
    push_cast at h1
    exact h1
  have hy' : (y : Int) < 4294967296 := by exact_mod_cast hy
  have hs_pos : 0 < mx - mn + 1 := by omega
  have hs_le : mx - mn + 1 ≤ 2 ^ 21 := by omega
  have hys_le : (y : Int) * (mx - mn + 1) ≤ (y : Int) * 2 ^ 21 :=
    mul_le_mul_of_nonneg_left hs_le (Int.natCast_nonneg y)
  have hys_up : (y : Int) * 2 ^ 21 < 4294967296 * 2 ^ 21 := by
    apply mul_lt_mul_of_pos_right hy'
    norm_num
  have hys_lt : (y : Int) * (mx - mn + 1) < 2 ^ 53 := by omega
  have hys_nonneg : 0 ≤ (y : Int) * (mx - mn + 1) :=
    mul_nonneg (Int.natCast_nonneg y) hs_pos.le
  have hprod_eq : ((y : ℚ) / 4294967296) * ((mx : ℚ) - (mn : ℚ) + 1)
      = (((y : Int) * (mx - mn + 1) : Int) : ℚ) / 4294967296 := by
    push_cast
    ring
  have hP : roundDouble (((y : ℚ) / 4294967296) * ((mx : ℚ) - (mn : ℚ) + 1))
      = (((y : Int) * (mx - mn + 1) : Int) : ℚ) / 4294967296 := by
    rw [hprod_eq]
    exact roundDouble_div32 _ (by omega)
  have hyc2 : (y : Int) * (mx - mn + 1) + mn * 4294967296 < 4294967296 * (mx - mn + 1)
      + mn * 4294967296 := by
    have := mul_lt_mul_of_pos_right hy' hs_pos
    omega
  have hc2_lt : (y : Int) * (mx - mn + 1) + mn * 4294967296 < 2 ^ 52 := by omega
  have hc2_gt : -(2 ^ 52) < (y : Int) * (mx - mn + 1) + mn * 4294967296 := by omega
  have hsum_eq : (((y : Int) * (mx - mn + 1) : Int) : ℚ) / 4294967296 + (mn : ℚ)
      = (((y : Int) * (mx - mn + 1) + mn * 4294967296 : Int) : ℚ) / 4294967296 := by
    push_cast
    ring
  have hS : roundDouble ((((y : Int) * (mx - mn + 1) : Int) : ℚ) / 4294967296 + (mn : ℚ))
      = (((y : Int) * (mx - mn + 1) + mn * 4294967296 : Int) : ℚ) / 4294967296 := by
    rw [hsum_eq]
    exact roundDouble_div32 _ (by omega)
  simp only [fpEvalInteger]
  rw [hr32, hrY, hd1, hspan, hP, hS]
  unfold integerVal
  congr 1
  push_cast
  ring

/-- C4 counterexample: for the valid inputs `min = 2^53 - 10`,
`max = 2^53 - 1` and the raw draw 4294967295, the binary64 evaluation of
`floor(random() * (max - min + 1) + min)` rounds the final addition up to
`2^53 = max + 1` before `Math.floor`, so `integer` returns a value outside
the inclusive range `[min, max]` that the claim states. -/
theorem integer_range_fp_cex :
    (9007199254740982 : Int) ≤ 9007199254740991 ∧ (4294967295 : Nat) < 4294967296 ∧
    fpEvalInteger 4294967295 9007199254740982 9007199254740991 = 9007199254740992 ∧
    9007199254740991 < fpEvalInteger 4294967295 9007199254740982 9007199254740991 := by
  have hr32 : roundDouble (1 / 4294967296) = 1 / 4294967296 := by
    have h1 := roundDouble_div32 1 (by norm_num)
    simpa using h1
  have hA : roundDouble (((4294967295 : Nat) : ℚ) * (1 / 4294967296))
      = 4294967295 / 4294967296 := by
    have h1 := roundDouble_div32 4294967295 (by norm_num)
    have harg : ((4294967295 : Nat) : ℚ) * (1 / 4294967296)
        = ((4294967295 : Int) : ℚ) / 4294967296 := by
      push_cast
      ring
    rw [harg, h1]
    norm_num
  have hd1 : roundDouble (((9007199254740991 : Int) : ℚ) - ((9007199254740982 : Int) : ℚ))
      = 9 := by
    have h1 := roundDouble_int 9 (by norm_num)
    have harg : ((9007199254740991 : Int) : ℚ) - ((9007199254740982 : Int) : ℚ)
        = ((9 : Int) : ℚ) := by
      push_cast
      norm_num
    rw [harg, h1]
    norm_num
  have hspanc : roundDouble ((9 : ℚ) + 1) = 10 := by
    have h1 := roundDouble_int 10 (by norm_num)
    have harg : (9 : ℚ) + 1 = ((10 : Int) : ℚ) := by norm_num
    rw [harg, h1]
    norm_num
  have hPc : roundDouble ((4294967295 / 4294967296 : ℚ) * 10) = 42949672950 / 4294967296 := by
    have h1 := roundDouble_div32 42949672950 (by norm_num)
    have harg : (4294967295 / 4294967296 : ℚ) * 10 = ((42949672950 : Int) : ℚ) / 4294967296 := by
      push_cast
      ring
    rw [harg, h1]
    norm_num
  have hSc : roundDouble ((42949672950 / 4294967296 : ℚ) + ((9007199254740982 : Int) : ℚ))
      = 9007199254740992 := by
    have h1 := roundDouble_round_up
      ((42949672950 / 4294967296 : ℚ) + ((9007199254740982 : Int) : ℚ)) 52 9007199254740991
      (by norm_num) (by norm_num) (by norm_num)
      (by
        rw [show (52 : Int) - 52 = 0 from by norm_num, zpow_zero, div_one, Int.floor_eq_iff]
        constructor
        · push_cast
          norm_num
        · push_cast
          norm_num)
      (by
        rw [show (52 : Int) - 52 = 0 from by norm_num, zpow_zero, div_one]
        push_cast
        norm_num)
    rw [h1]
    norm_num
  have hmain : fpEvalInteger 4294967295 9007199254740982 9007199254740991
      = 9007199254740992 := by
    simp only [fpEvalInteger]
    rw [hr32, hA, hd1, hspanc, hPc, hSc]
    rw [show (9007199254740992 : ℚ) = ((9007199254740992 : Int) : ℚ) from by norm_num,
      Int.floor_intCast]
  exact ⟨by norm_num, by norm_num, hmain, by rw [hmain]; norm_num⟩

/-- C4 amended: for `min <= max` within the magnitude range where the
binary64 evaluation is exact (`|min|`, `|max| < 2^20`), `integer` returns
the binary64 evaluation of `floor(nextFloat() * (max - min + 1) + min)`,
which equals the exact-arithmetic floor and lies in the inclusive range
`[min, max]`; `nextFloat()` (the raw 32-bit draw over `2^32`) lies in
`[0, 1)`; and whenever `min > max`, `integer` raises the range error before
drawing.  (Near representable-integer boundaries - the counterexample sits
at `2^53` - the rounded sum can reach `max + 1`, so the containment of the
original claim fails there.) -/
theorem integer_range_fp (st : MTState) (mn mx : Int)
    (hlo : -(2 ^ 20) < mn) (hhi : mx < 2 ^ 20) :
    (0 ≤ (nextFloat st).1 ∧ (nextFloat st).1 < 1) ∧
    (mn ≤ mx →
      (integerImplFP st mn mx).1 = Except.ok (fpEvalInteger (genrand_int32 st).1 mn mx) ∧
      fpEvalInteger (genrand_int32 st).1 mn mx = integerVal (nextFloat st).1 mn mx ∧
      mn ≤ fpEvalInteger (genrand_int32 st).1 mn mx ∧
      fpEvalInteger (genrand_int32 st).1 mn mx ≤ mx) ∧
    (mx < mn → (integerImplFP st mn mx).1 = Except.error integerRangeMsg) := by
  have hval : (nextFloat st).1 = ((genrand_int32 st).1 : ℚ) / 4294967296 := rfl
  refine ⟨⟨nextFloat_nonneg st, nextFloat_lt_one st⟩, ?_, ?_⟩
  · intro h
    have hex := fpEvalInteger_exact (genrand_int32 st).1 mn mx (genrand_int32_lt st) h hlo hhi
    have hb := integerVal_bounds (nextFloat st).1 mn mx h (nextFloat_nonneg st)
      (nextFloat_lt_one st)
    refine ⟨?_, ?_, ?_, ?_⟩
    · unfold integerImplFP
      rw [if_neg (by omega)]
    · rw [hex, hval]
    · rw [hex, ← hval]
      exact hb.1
    · rw [hex, ← hval]
      exact hb.2
  · intro h
    unfold integerImplFP
    rw [if_pos (by omega)]

/-- Witness for the amended C4 theorem at `min = 1`, `max = 3` on a
concrete engine state. -/
theorem integer_range_fp_witness :
    (-(2 ^ 20) < (1 : Int) ∧ (3 : Int) < 2 ^ 20 ∧ (1 : Int) ≤ 3) ∧
    ((integerImplFP probeState 1 3).1 = Except.ok (fpEvalInteger (genrand_int32 probeState).1 1 3) ∧
      fpEvalInteger (genrand_int32 probeState).1 1 3 = integerVal (nextFloat probeState).1 1 3 ∧
      1 ≤ fpEvalInteger (genrand_int32 probeState).1 1 3 ∧
      fpEvalInteger (genrand_int32 probeState).1 1 3 ≤ 3) :=
  ⟨⟨by norm_num, by norm_num, by norm_num⟩,
    (integer_range_fp probeState 1 3 (by norm_num) (by norm_num)).2.1 (by norm_num)⟩

/-! ## C5 -/

theorem luhn_check_append (body : List Nat) :
    luhn_check (body ++ [luhn_calculate body]) = true := by
  unfold luhn_check
  rw [List.getLastD_concat, List.dropLast_concat]
  simp

/-- C5: every number `cc()` builds for an issuer type from the `cc_types`
table (prefix digits, then random filler digits, then the digit
`luhn_calculate` computes on the preceding digits) passes `luhn_check`. -/
theorem cc_luhn_roundtrip (st : MTState) (t : CCType) (_ht : t ∈ cc_types) :
    luhn_check (ccImpl st t).1 = true :=
  luhn_check_append _

/-- Witness for C5: the American Express entry at a concrete engine state. -/
theorem cc_luhn_roundtrip_witness :
    ((⟨"American Express", "amex", [3, 4], 15⟩ : CCType) ∈ cc_types) ∧
    luhn_check (ccImpl probeState (⟨"American Express", "amex", [3, 4], 15⟩ : CCType)).1 = true :=
  ⟨by decide, cc_luhn_roundtrip probeState _ (by decide)⟩

/-! ## C10 -/

theorem nGo_char_state : ∀ (k : Nat) (st : MTState),
    (nGo characterImpl k st).2 = stepState^[k] st ∧ (nGo characterImpl k st).1.length = k := by
  intro k
  induction k with
  | zero => intro st; exact ⟨rfl, rfl⟩
  | succ n ih =>
    intro st
    refine ⟨?_, ?_⟩
    · show (nGo characterImpl n (characterImpl st).2).2 = _
      rw [(ih _).1, Function.iterate_succ_apply]
      rfl
    · show ((characterImpl st).1 :: (nGo characterImpl n (characterImpl st).2).1).length = n + 1
      simp [(ih _).2]

/-- C10: `string` with an explicit length `len` draws the random default
length before consulting the options, so it advances the engine by exactly
`len + 1` raw draws, and returns `len` characters. -/
theorem string_draw_count (st : MTState) (len : Nat) :
    (stringImpl st len).2 = stepState^[len + 1] st ∧ (stringImpl st len).1.length = len := by
  have h1 : (naturalImpl st 5 20).2 = stepState st := rfl
  unfold stringImpl
  rw [h1]
  exact ⟨by rw [(nGo_char_state len (stepState st)).1, Function.iterate_succ_apply],
    (nGo_char_state len (stepState st)).2⟩

/-! ## C6 -/

theorem perm_cons_eraseIdx : ∀ (l : List α) (i : Nat) (h : i < l.length),
    List.Perm l (l[i] :: l.eraseIdx i) := by
  intro l
  induction l with
  | nil => intro i h; simp at h
  | cons a t ih =>
    intro i h
    cases i with
    | zero => simp
    | succ n =>
      have hn : n < t.length := by simpa using h
      simp only [List.getElem_cons_succ, List.eraseIdx_cons_succ]
      exact ((ih n hn).cons a).trans (List.Perm.swap _ _ _)

theorem shuffle_index_lt [Inhabited α] (st : MTState) (old : List α) (h : 0 < old.length) :
    (integerVal (nextFloat st).1 0 ((old.length : Int) - 1)).toNat < old.length := by
  have hb := integerVal_bounds (nextFloat st).1 0 ((old.length : Int) - 1)
    (by omega) (nextFloat_nonneg st) (nextFloat_lt_one st)
  omega

theorem shuffleGo_perm [Inhabited α] :
    ∀ (n : Nat) (st : MTState) (old : List α), old.length = n →
      List.Perm (shuffleGo n st old).1 old := by
  intro n
  induction n with
  | zero =>
    intro st old h
    have hnil : old = [] := List.length_eq_zero.mp h
    subst hnil
    simp [shuffleGo]
  | succ n ih =>
    intro st old h
    have hlen : 0 < old.length := by omega
    have hjlt := shuffle_index_lt st old hlen
    have hrest := ih (nextFloat st).2
      (old.eraseIdx ((integerVal (nextFloat st).1 0 ((old.length : Int) - 1)).toNat))
      (by have := List.length_eraseIdx_add_one hjlt; omega)
    show List.Perm (old.getD ((integerVal (nextFloat st).1 0 ((old.length : Int) - 1)).toNat)
      default :: (shuffleGo n (nextFloat st).2
        (old.eraseIdx ((integerVal (nextFloat st).1 0 ((old.length : Int) - 1)).toNat))).1) old
    rw [List.getD_eq_getElem old default hjlt]
    exact (hrest.cons _).trans (perm_cons_eraseIdx old _ hjlt).symm

theorem shuffleHGo_frame : ∀ (n : Nat) (st : MTState) (h : Heap) (ca b : Nat), b ≠ ca →
    readObj (shuffleHGo n st h ca).2.1 b = readObj h b := by
  intro n
  induction n with
  | zero => intro st h ca b hb; rfl
  | succ n ih =>
    intro st h ca b hb
    simp only [shuffleHGo]
    rw [ih _ _ _ _ hb]
    exact List.getElem?_set_ne (Ne.symm hb)

theorem shuffleHGo_fst : ∀ (n : Nat) (st : MTState) (h : Heap) (ca : Nat) (old : List JVal),
    readObj h ca = some (JObj.arr old) →
    (shuffleHGo n st h ca).1 = (shuffleGo n st old).1 := by
  intro n
  induction n with
  | zero => intro st h ca old hca; rfl
  | succ n ih =>
    intro st h ca old hca
    have hlt : ca < h.length := by
      by_contra hc
      push_neg at hc
      rw [readObj, List.getElem?_eq_none hc] at hca
      exact absurd hca (by simp)
    have hset : readObj (h.set ca (JObj.arr (old.eraseIdx
        ((integerVal (nextFloat st).1 0 ((old.length : Int) - 1)).toNat)))) ca =
        some (JObj.arr (old.eraseIdx
        ((integerVal (nextFloat st).1 0 ((old.length : Int) - 1)).toNat))) := by
      rw [readObj]
      exact List.getElem?_set_self hlt
    simp only [shuffleHGo, shuffleGo, hca]
    rw [ih _ _ _ _ hset]
    rfl

/-- C6: `shuffle` returns a permutation of the input array (same multiset,
same length), and the input array on the heap is unmodified after the call
(only the freshly allocated working copy is spliced). -/
theorem shuffle_perm_frame (st : MTState) (h : Heap) (a : Nat) (es : List JVal)
    (ha : readObj h a = some (JObj.arr es)) :
    List.Perm (shuffleH h a st).1 es ∧
    (∀ b, b < h.length → readObj (shuffleH h a st).2.1 b = readObj h b) := by
  have hfresh : readObj (h ++ [JObj.arr es]) h.length = some (JObj.arr es) :=
    List.getElem?_concat_length _ _
  constructor
  · have h1 : (shuffleH h a st).1 = (shuffleGo es.length st es).1 := by
      simp only [shuffleH, ha, alloc]
      exact shuffleHGo_fst _ _ _ _ _ hfresh
    rw [h1]
    exact shuffleGo_perm es.length st es rfl
  · intro b hb
    have h2 : (shuffleH h a st).2.1 =
        (shuffleHGo es.length st (h ++ [JObj.arr es]) h.length).2.1 := by
      simp only [shuffleH, ha, alloc]
    rw [h2, shuffleHGo_frame _ _ _ _ _ (by omega)]
    exact List.getElem?_append_left hb

/-- Witness for C6 on a two-element table at a concrete engine state. -/
theorem shuffle_perm_frame_witness :
    (readObj [JObj.arr [JVal.vnum 1, JVal.vnum 2]] 0 = some (JObj.arr [JVal.vnum 1, JVal.vnum 2])) ∧
    List.Perm (shuffleH [JObj.arr [JVal.vnum 1, JVal.vnum 2]] 0 probeState).1
      [JVal.vnum 1, JVal.vnum 2] ∧
    readObj (shuffleH [JObj.arr [JVal.vnum 1, JVal.vnum 2]] 0 probeState).2.1 0 =
      readObj [JObj.arr [JVal.vnum 1, JVal.vnum 2]] 0 := by
  have hmain := shuffle_perm_frame probeState [JObj.arr [JVal.vnum 1, JVal.vnum 2]] 0
    [JVal.vnum 1, JVal.vnum 2] rfl
  exact ⟨rfl, hmain.1, hmain.2 0 (by norm_num)⟩

/-! ## C7 -/

theorem posSum_foldl_le :
    ∀ (l : List ℚ) (acc : ℚ), acc ≤ l.foldl (fun a v => if 0 < v then a + v else a) acc := by
  intro l
  induction l with
  | nil => intro acc; simp
  | cons v rest ih =>
    intro acc
    simp only [List.foldl_cons]
    refine le_trans ?_ (ih _)
    by_cases hv : 0 < v
    · rw [if_pos hv]; linarith
    · rw [if_neg hv]

theorem posSum_pos (weights : List ℚ) (h : ∃ w ∈ weights, 0 < w) : 0 < posSum weights := by
  obtain ⟨w, hw, hwp⟩ := h
  obtain ⟨s, t, rfl⟩ := List.append_of_mem hw
  unfold posSum
  rw [List.foldl_append, List.foldl_cons, if_pos hwp]
  have h0 : (0 : ℚ) ≤ s.foldl (fun a v => if 0 < v then a + v else a) 0 := posSum_foldl_le s 0
  calc (0 : ℚ) < s.foldl (fun a v => if 0 < v then a + v else a) 0 + w := by linarith
    _ ≤ _ := posSum_foldl_le t _

/-- Goodness of a scan index: in range and with strictly positive weight. -/
def goodIdx (full : List ℚ) (i : Int) : Prop :=
  0 ≤ i ∧ i.toNat < full.length ∧ 0 < full.getD i.toNat 0

theorem weightedScanGo_good (selected : ℚ) :
    ∀ (suffix full : List ℚ) (idx : Nat) (total : ℚ) (lastGood : Int),
      full.drop idx = suffix →
      ((∃ w ∈ suffix, 0 < w) ∨ goodIdx full lastGood) →
      goodIdx full (weightedScanGo selected suffix idx total lastGood) := by
  intro suffix
  induction suffix with
  | nil =>
    intro full idx total lastGood _ hex
    rcases hex with ⟨w, hw, _⟩ | hg
    · exact absurd hw (List.not_mem_nil w)
    · exact hg
  | cons v rest ih =>
    intro full idx total lastGood hdrop hex
    have hidx : idx < full.length := by
      have hl := congrArg List.length hdrop
      simp only [List.length_drop, List.length_cons] at hl
      omega
    have hvidx : full.getD idx 0 = v := by
      have h0 : full[idx]? = some v := by
        have hd := List.getElem?_drop full idx 0
        rw [hdrop] at hd
        simpa using hd.symm
      simp [List.getD, h0]
    have hgoodidx : 0 < v → goodIdx full (idx : Int) := by
      intro hv
      refine ⟨by omega, ?_, ?_⟩
      · rw [Int.toNat_natCast]
        exact hidx
      · rw [Int.toNat_natCast, hvidx]
        exact hv
    have hdrop' : full.drop (idx + 1) = rest := by
      have hd : full.drop (idx + 1) = (full.drop idx).drop 1 := by
        rw [← List.drop_drop]
      rw [hd, hdrop]
      rfl
    simp only [weightedScanGo]
    by_cases hbr : 0 < v ∧ selected ≤ total + v
    · rw [if_pos hbr]
      exact hgoodidx hbr.1
    · rw [if_neg hbr]
      refine ih full (idx + 1) (total + v) _ hdrop' ?_
      by_cases hv : 0 < v
      · rw [if_pos hv]
        exact Or.inr (hgoodidx hv)
      · rw [if_neg hv]
        rcases hex with ⟨w, hw, hwp⟩ | hg
        · rcases List.mem_cons.mp hw with rfl | hw'
          · exact absurd hwp hv
          · exact Or.inl ⟨w, hw', hwp⟩
        · exact Or.inr hg

/-- C7: `weighted` never returns an element whose weight is not strictly
positive (given matching lengths and at least one positive weight, at every
engine state the chosen index has positive weight); in particular
`weighted(['a','b'], [0,1])` always returns `'b'`. -/
theorem weighted_positive [Inhabited α] (st : MTState) (arr : List α) (weights : List ℚ)
    (hlen : arr.length = weights.length) (hex : ∃ w ∈ weights, 0 < w) :
    (∃ i, i < weights.length ∧ 0 < weights.getD i 0 ∧
      (weightedImpl st arr weights).1 = Except.ok (arr.getD i default)) ∧
    (∀ st2 : MTState, (weightedImpl st2 ["a", "b"] [0, 1]).1 = Except.ok ("b")) := by
  constructor
  · have hsum := posSum_pos weights hex
    have hgood := weightedScanGo_good ((nextFloat st).1 * posSum weights) weights weights 0 0 (-1)
      (by simp) (Or.inl hex)
    refine ⟨(weightedScanGo ((nextFloat st).1 * posSum weights) weights 0 0 (-1)).toNat,
      hgood.2.1, hgood.2.2, ?_⟩
    simp only [weightedImpl]
    rw [if_neg (by omega), if_neg (ne_of_gt hsum)]
  · intro st2
    have hps : posSum [(0 : ℚ), 1] = 1 := by norm_num [posSum]
    have hr1 := nextFloat_lt_one st2
    have hscan : weightedScanGo ((nextFloat st2).1 * 1) [(0 : ℚ), 1] 0 0 (-1) = 1 := by
      simp only [weightedScanGo]
      rw [if_neg (by norm_num), if_pos ⟨by norm_num, by nlinarith⟩]
      norm_num
    simp only [weightedImpl]
    rw [if_neg (by norm_num), hps, if_neg (by norm_num), hscan]
    rfl

/-- Witness for C7: `['a','b']` with weights `[0,1]` at a concrete state. -/
theorem weighted_positive_witness :
    ((["a", "b"] : List String).length = ([0, 1] : List ℚ).length ∧
      ∃ w ∈ ([0, 1] : List ℚ), 0 < w) ∧
    (weightedImpl probeState ["a", "b"] [(0 : ℚ), 1]).1 = Except.ok ("b") :=
  ⟨⟨rfl, ⟨1, by norm_num, by norm_num⟩⟩,
    (weighted_positive probeState ["a", "b"] [0, 1] rfl ⟨1, by norm_num, by norm_num⟩).2
      probeState⟩

/-! ## C8 -/

/-- C8: `pickset` on an empty array with positive count raises the
empty-array range error; any negative count raises a range error (the
empty-array one for an empty source, the negative-count one otherwise); and
count 0 returns `[]` (in particular for `['a']`). -/
theorem pickset_errors [Inhabited α] (st : MTState) (arr : List α) (c : Int) :
    (0 < c → arr = [] → (picksetImpl st arr c).1 = Except.error picksetEmptyMsg) ∧
    (c < 0 → (picksetImpl st arr c).1 = Except.error picksetEmptyMsg ∨
      (picksetImpl st arr c).1 = Except.error picksetNegMsg) ∧
    picksetImpl st arr 0 = (Except.ok [], st) := by
  refine ⟨?_, ?_, ?_⟩
  · intro hc harr
    unfold picksetImpl
    rw [if_neg (by omega), if_pos (by simp [harr])]
  · intro hc
    unfold picksetImpl
    rw [if_neg (by omega)]
    by_cases h0 : arr.length = 0
    · left
      rw [if_pos h0]
    · right
      rw [if_neg h0, if_pos hc]
  · unfold picksetImpl
    rw [if_pos rfl]

/-- Witness for C8: `pickset([], 2)` raises the range error and
`pickset(['a'], 0)` returns `[]`. -/
theorem pickset_errors_witness :
    ((0 : Int) < 2 ∧ ([] : List String) = []) ∧
    (picksetImpl probeState ([] : List String) 2).1 = Except.error picksetEmptyMsg ∧
    picksetImpl probeState ["a"] 0 = (Except.ok [], probeState) :=
  ⟨⟨by norm_num, rfl⟩,
    (pickset_errors probeState ([] : List String) 2).1 (by norm_num) rfl,
    (pickset_errors probeState ["a"] 0).2.2⟩

/-! ## C9 -/

/-- C9 counterexample: `get` is only a shallow copy.  For the concrete
table heap, mutating the row object reached through the copy returned by `get`
changes what a subsequent read of the canonical table sees. -/
theorem get_deep_copy_cex :
    tableFieldRead mutatedHeap 0 0 ("name") ≠ tableFieldRead tableHeap 0 0 ("name") := by
  decide

/-- C9 amended: `get` returns a fresh top-level container with the same
top-level contents as the canonical table, so mutating the returned
container itself (replacing, adding or removing elements) leaves every
pre-existing heap object, in particular the canonical table, unchanged;
nested objects, however, are shared with the canonical table. -/
theorem get_shallow_copy (h : Heap) (a : Nat) (es : List JVal)
    (ha : readObj h a = some (JObj.arr es)) :
    (chanceGet h a).2 = h.length ∧
    readObj (chanceGet h a).1 (chanceGet h a).2 = readObj h a ∧
    (∀ i v b, b < h.length →
      readObj (setArrElem (chanceGet h a).1 (chanceGet h a).2 i v) b = readObj h b) := by
  have hch : chanceGet h a = (h ++ [JObj.arr es], h.length) := by
    unfold chanceGet
    rw [ha]
    rfl
  refine ⟨by rw [hch], ?_, ?_⟩
  · rw [hch, ha]
    exact List.getElem?_concat_length _ _
  · intro i v b hb
    rw [hch]
    unfold setArrElem
    rw [show readObj (h ++ [JObj.arr es]) h.length = some (JObj.arr es) from
      List.getElem?_concat_length _ _]
    show ((h ++ [JObj.arr es]).set h.length (JObj.arr (es.set i v)))[b]? = h[b]?
    rw [List.getElem?_set_ne (by omega)]
    exact List.getElem?_append_left hb

/-- Witness for the amended C9 theorem on the concrete table heap. -/
theorem get_shallow_copy_witness :
    (readObj tableHeap 0 = some (JObj.arr [JVal.vref 1])) ∧
    ((chanceGet tableHeap 0).2 = tableHeap.length ∧
      readObj (chanceGet tableHeap 0).1 (chanceGet tableHeap 0).2 = readObj tableHeap 0 ∧
      readObj (setArrElem (chanceGet tableHeap 0).1 (chanceGet tableHeap 0).2 0 (JVal.vnum 5)) 0 =
        readObj tableHeap 0) := by
  have hmain := get_shallow_copy tableHeap 0 [JVal.vref 1] rfl
  exact ⟨rfl, hmain.1, hmain.2.1, hmain.2.2 0 (JVal.vnum 5) 0 (by norm_num [tableHeap])⟩

end Chance
